import Mathlib

/-
Shallow embedding of the diff-context-extraction pipeline of the
git-commit-ai repository.

The embedded code is the TypeScript module diffUtils.ts (getFileContent,
getSmartFileContent, getSmartDiff), the response parser parseAIResponse of
commitGenerator.ts, and the response handling of reviewCode in
code-review.ts.  JavaScript string primitives used by that code
(String.prototype.startsWith, slice, split, the regex search of the hunk
header pattern, and the insertion-ordered Map and Set) are given explicit
executable definitions below, faithful to their JavaScript semantics on the
inputs the code feeds them.  Asynchronous git subprocess calls are modeled
as pure functions passed in as parameters: gitDiff maps a git diff argument
list to the text the subprocess would print at that point of the
invocation, and gitShow maps a file path to its committed content at HEAD
(none when git show fails because the path does not exist there).  Console
logging is not modeled.
-/

namespace CommitAI

/-- JavaScript s.startsWith(p). -/
def jsStartsWith (s p : String) : Bool :=
  p.data.isPrefixOf s.data

/-- JavaScript s.slice(n) for a nonnegative n. -/
def jsDrop (s : String) (n : Nat) : String :=
  String.mk (s.data.drop n)

/-- JavaScript s.split(newline) on a character list: an empty input gives
one empty field, and every newline character ends a field. -/
def splitNl : List Char → List (List Char)
  | [] => [[]]
  | c :: rest =>
    if c = '\n' then
      [] :: splitNl rest
    else
      match splitNl rest with
      | [] => [[c]]
      | l :: ls => (c :: l) :: ls

/-- JavaScript s.split(newline) on a string. -/
def jsSplitLines (s : String) : List String :=
  (splitNl s.data).map String.mk

/-- Decimal value of a digit run, as computed by parseInt(ds, 10). -/
def natOfDigits (ds : List Char) : Nat :=
  ds.foldl (fun a c => a * 10 + (c.toNat - 48)) 0

/-- Tail of the hunk header regex: expects a space, a plus sign, and the
captured digit run of the new-side start line. -/
def matchHunkTail (cs : List Char) : Option Nat :=
  match cs with
  | ' ' :: '+' :: rest =>
    let ds := rest.takeWhile Char.isDigit
    if ds.isEmpty then none else some (natOfDigits ds)
  | _ => none

/-- After the old-side digits of the hunk header regex: an optional comma
and digit run, then the tail.  A comma not followed by a digit fails the
whole match at this position, exactly as regex backtracking would. -/
def matchHunkMid (cs : List Char) : Option Nat :=
  match cs with
  | ',' :: rest =>
    let ds := rest.takeWhile Char.isDigit
    if ds.isEmpty then none else matchHunkTail (rest.dropWhile Char.isDigit)
  | _ => matchHunkTail cs

/-- One attempt of the hunk header regex anchored at the head of cs. -/
def matchHunkAt (cs : List Char) : Option Nat :=
  match cs with
  | '@' :: '@' :: ' ' :: '-' :: rest =>
    let ds := rest.takeWhile Char.isDigit
    if ds.isEmpty then none else matchHunkMid (rest.dropWhile Char.isDigit)
  | _ => none

/-- JavaScript line.match of the hunk header regex: leftmost match of the
pattern at-at space minus digits optional-comma-digits space plus captured
digits, returning the captured new-side start line. -/
def findHunkNum : List Char → Option Nat
  | [] => none
  | c :: rest =>
    match matchHunkAt (c :: rest) with
    | some n => some n
    | none => findHunkNum rest

/-- The insertion-ordered JavaScript Map from file path to added-line set,
as an association list. -/
abbrev FileMap := List (String × List Nat)

/-- JavaScript Map.set: replace the value in place when the key exists,
else append a new entry. -/
def mapSet (m : FileMap) (k : String) (v : List Nat) : FileMap :=
  if m.any (fun p => p.1 == k) then
    m.map (fun p => if p.1 == k then (p.1, v) else p)
  else
    m ++ [(k, v)]

/-- JavaScript Set.add on an insertion-ordered number set. -/
def setAdd (s : List Nat) (v : Nat) : List Nat :=
  if v ∈ s then s else s ++ [v]

/-- changedFiles.get(k)?.add(v): append v to the set stored under k, a
no-op on entries with other keys. -/
def mapAdd (m : FileMap) (k : String) (v : Nat) : FileMap :=
  m.map (fun p => if p.1 == k then (p.1, setAdd p.2 v) else p)

/-- The value stored under key k, empty when k is absent. -/
def lookupLines (m : FileMap) (k : String) : List Nat :=
  match m.find? (fun p => p.1 == k) with
  | some p => p.2
  | none => []

/-- The keys of the map in insertion order: Array.from(m.keys()). -/
def keysOf (m : FileMap) : List String :=
  m.map Prod.fst

/-- The mutable state of the diff parsing loop in getSmartDiff. -/
structure ParseState where
  files : FileMap
  currentFile : String
  currentLine : Nat
deriving DecidableEq

/-- State before the loop: empty map, empty current file, counter 0. -/
def initState : ParseState :=
  { files := [], currentFile := "", currentLine := 0 }

/-- One iteration of the diff parsing loop of getSmartDiff, on one line of
the diff text. -/
def parseStep (s : ParseState) (line : String) : ParseState :=
  if jsStartsWith line "+++" then
    { files := mapSet s.files (jsDrop line 6) [],
      currentFile := jsDrop line 6,
      currentLine := s.currentLine }
  else if jsStartsWith line "@@" then
    match findHunkNum line.data with
    | some n => { s with currentLine := n }
    | none => s
  else if jsStartsWith line "+" && s.currentFile != "" then
    { s with files := mapAdd s.files s.currentFile s.currentLine,
             currentLine := s.currentLine + 1 }
  else if !jsStartsWith line "-" then
    { s with currentLine := s.currentLine + 1 }
  else s

/-- The whole diff parsing loop of getSmartDiff over diff.split(newline). -/
def parseDiff (diff : String) : ParseState :=
  (jsSplitLines diff).foldl parseStep initState

/-- Array.from(changedFiles.keys()) for a given diff text. -/
def changedFilesOf (diff : String) : List String :=
  keysOf (parseDiff diff).files

/-- 50KB limit for full file content. -/
def MAX_FILE_SIZE : Nat := 50 * 1024

/-- Max lines for partial content. -/
def MAX_LINES_CONTEXT : Nat := 100

/-- The relevantLines set built by getSmartFileContent: for each changed
line number L the loop adds every index i with max(0, L - 25) <= i and
i < min(n, L + 25), where n is the number of lines of the file. -/
def relevantLines (n : Nat) (ls : List Nat) : Finset ℕ :=
  ls.foldl (fun acc L => acc ∪ Finset.Ico (L - 25) (min n (L + 25))) ∅

/-- The emission loop of getSmartFileContent: walk the sorted selected
indices, writing a skip marker before any non-adjacent successor; the
lastLine variable starts at -1, modeled as none. -/
def emitLoop (lines : List String) : List Nat → Option Nat → String → String
  | [], _, acc => acc
  | i :: rest, last, acc =>
    let acc :=
      match last with
      | some j => if j + 1 < i then acc ++ "\n// ... (skipped lines) ...\n" else acc
      | none => acc
    emitLoop lines rest (some i) (acc ++ (lines.getD i "") ++ "\n")

/-- The partial content built from the selected indices, in ascending
order as produced by Array.from(relevantLines).sort((a, b) => a - b). -/
def buildExcerpt (lines : List String) (rl : Finset ℕ) : String :=
  emitLoop lines (rl.sort (· ≤ ·)) none ""

/-- The large-file half of getSmartFileContent, after content.split. -/
def sampleLines (lines : List String) (ls : List Nat) : Option String :=
  let rl := relevantLines lines.length ls
  if MAX_LINES_CONTEXT < rl.card then none
  else some (buildExcerpt lines rl)

/-- getFileContent: git show HEAD of the path, none when git show throws
because the file does not exist there. -/
def getFileContent (gitShow : String → Option String) (filePath : String) : Option String :=
  gitShow filePath

/-- getSmartFileContent: nothing for missing or empty content, full
content under the size threshold, else the sampled excerpt or nothing when
over the line budget. -/
def getSmartFileContent (fileContent : Option String) (ls : List Nat) : Option String :=
  match fileContent with
  | none => none
  | some c =>
    if c = "" then none
    else if c.length < MAX_FILE_SIZE then some c
    else sampleLines (jsSplitLines c) ls

/-- The options record of getSmartDiff. -/
structure DiffOptions where
  shouldStage : Bool
  fromBranch : Option String
  toBranch : Option String

/-- The DiffInfo payload returned by getSmartDiff; fileContents is the
insertion-ordered map built from the changed files. -/
structure DiffInfo where
  diff : String
  changedFiles : List String
  stats : String
  fileContents : List (String × String)
deriving DecidableEq

/-- JavaScript truthiness of an optional string: undefined and the empty
string are falsy. -/
def jsTruthy : Option String → Bool
  | none => false
  | some s => s != ""

/-- The shared argument list of the main diff invocations. -/
def baseArgs : List String :=
  ["--unified=8", "--function-context", "--diff-algorithm=histogram"]

/-- getSmartDiff of diffUtils.ts.  The git.add side effect of shouldStage
is not modeled separately: gitDiff already denotes the subprocess output
for the repository state in which the diff calls run.  The wrapped rethrow
for an unresolvable branch pair is outside the modeled behavior, since
gitDiff is total. -/
def getSmartDiff (gitDiff : List String → String) (gitShow : String → Option String)
    (o : DiffOptions) : Except String DiffInfo :=
  let diff :=
    if jsTruthy o.fromBranch && jsTruthy o.toBranch then
      gitDiff (baseArgs ++ [(o.fromBranch.getD "") ++ "..." ++ (o.toBranch.getD "")])
    else
      let staged := gitDiff ("--staged" :: baseArgs)
      if staged = "" then gitDiff baseArgs else staged
  if diff = "" then
    Except.error "No changes found in the repository."
  else
    let st := parseDiff diff
    let fileContents := st.files.foldl
      (fun acc fl =>
        match getSmartFileContent (getFileContent gitShow fl.1) fl.2 with
        | some c => if c = "" then acc else acc ++ [(fl.1, c)]
        | none => acc) []
    Except.ok
      { diff := diff,
        changedFiles := keysOf st.files,
        stats := gitDiff ["--stat"],
        fileContents := fileContents }

/-- The security block of the structured AI reply. -/
structure SecurityResult where
  hasSensitiveInfo : Bool
  details : String
deriving DecidableEq

/-- The commit block of the structured AI reply. -/
structure CommitResult where
  message : String
deriving DecidableEq

/-- One review feedback item of the structured AI reply. -/
structure ReviewFeedbackItem where
  file : String
  type : String
  code : String
  description : String
  suggestion : String
deriving DecidableEq

/-- The review block of the structured AI reply. -/
structure ReviewSection where
  hasIssues : Bool
  feedback : List ReviewFeedbackItem
deriving DecidableEq

/-- The full structured AI reply expected by parseAIResponse. -/
structure AIResponse where
  security : SecurityResult
  review : ReviewSection
  commit : CommitResult
deriving DecidableEq

/-- The value parseAIResponse returns to its caller. -/
structure ParsedCommit where
  message : String
  hasSensitiveInfo : Bool
  hasReviewIssues : Bool
deriving DecidableEq

/-- parseAIResponse of commitGenerator.ts.  JSON.parse is external library
code, modeled as the parameter parse; none is a thrown parse error, caught
by the surrounding try.  content is the message content of the first
choice of the reply, none when that field is null, and the JavaScript
or-else with the empty string is applied before parsing. -/
def parseAIResponse (parse : String → Option AIResponse) (content : Option String) : ParsedCommit :=
  match parse (content.getD "") with
  | some result =>
    { message := result.commit.message,
      hasSensitiveInfo := result.security.hasSensitiveInfo,
      hasReviewIssues := result.review.hasIssues }
  | none =>
    { message := content.getD "",
      hasSensitiveInfo := false,
      hasReviewIssues := false }

/-- The security block of the review reply in code-review.ts. -/
structure CRSecurityResult where
  hasSensitiveInfo : Bool
  details : List String
deriving DecidableEq

/-- The CodeReviewResult shape of code-review.ts. -/
structure CodeReviewResult where
  security : CRSecurityResult
  review : ReviewSection
deriving DecidableEq

/-- The response handling of reviewCode in code-review.ts, from the point
where the API reply is in hand.  A null content throws, and a JSON.parse
failure is caught by the outer catch block, logged, and rethrown; both
abort the call without a result, modeled as none.  A parsed reply is
returned as is. -/
def reviewCode (parse : String → Option CodeReviewResult) (content : Option String) :
    Option CodeReviewResult :=
  match content with
  | none => none
  | some c =>
    match parse c with
    | none => none
    | some r => some r

/-- Modelled from the spec, for comparison with the code: the stat summary
for the same comparison as the main diff, namely the branch range when a
branch pair is given, else the staged comparison when the staged diff was
nonempty, else the unstaged comparison. -/
def specSameComparisonStats (gitDiff : List String → String) (o : DiffOptions) : String :=
  if jsTruthy o.fromBranch && jsTruthy o.toBranch then
    gitDiff ["--stat", (o.fromBranch.getD "") ++ "..." ++ (o.toBranch.getD "")]
  else if gitDiff ("--staged" :: baseArgs) ≠ "" then
    gitDiff ["--staged", "--stat"]
  else
    gitDiff ["--stat"]

/-- Modelled from the spec, for comparison with the code: the changed-file
order described by the spec is the order of first appearance, keeping the
first occurrence of each path. -/
def firstSeen (ls : List String) : List String :=
  ls.foldl (fun acc x => if x ∈ acc then acc else acc ++ [x]) []

/-- The paths of all lines of the diff that carry a file header, in diff
order, each taken as the remainder of its line after six characters. -/
def plusPaths (diff : String) : List String :=
  ((jsSplitLines diff).filter (fun l => jsStartsWith l "+++")).map (fun l => jsDrop l 6)

/-- Modelled from the spec, for comparison with the code: the excerpt
window around a changed line covering twenty-five lines before and
twenty-five lines after it, clamped to the file bounds. -/
def specWindow (n L : Nat) : Finset ℕ :=
  Finset.Icc (L - 25) (min (n - 1) (L + 25))

/-- The current file of the parse state, when nonempty, is registered in
the file map. -/
def FileInv (s : ParseState) : Prop :=
  s.currentFile = "" ∨ s.currentFile ∈ keysOf s.files

/-- A file of n repetitions of a one-letter line and a newline. -/
def aLines : Nat → List Char
  | 0 => []
  | n + 1 => 'a' :: '\n' :: aLines n

/-- A committed file content above the 50KB threshold with 25600 lines. -/
def bigA : String := String.mk (aLines 25600)

/-- A concrete git diff function that distinguishes the argument lists of
the plain stat call, the branch-range stat call, and the branch-range main
diff call. -/
def g0 : List String → String := fun args =>
  if args = ["--stat"] then "plain-stat"
  else if args = ["--stat", "main...dev"] then "range-stat"
  else if args = baseArgs ++ ["main...dev"] then "range-diff"
  else ""

/-- A committed-content function for a tree with no readable files. -/
def show0 : String → Option String := fun _ => none

/-- Branch-pair options naming the main and dev references. -/
def opts0 : DiffOptions :=
  { shouldStage := false, fromBranch := some "main", toBranch := some "dev" }

/-- The stats field of a successful fetch result. -/
def diffStats : Except String DiffInfo → Option String
  | Except.ok i => some i.stats
  | Except.error _ => none

/-- The payload produced by the counterexample fetch of the stat claim. -/
def info0 : DiffInfo :=
  { diff := "range-diff", changedFiles := [], stats := "plain-stat", fileContents := [] }

lemma startsWith_plus_iff (x : String) :
    jsStartsWith x "+" = true ↔ ∃ t, x.data = '+' :: t := by
  unfold jsStartsWith
  rw [show ("+" : String).data = ['+'] from rfl]
  cases hx : x.data with
  | nil => simp [List.isPrefixOf]
  | cons c t =>
    simp [List.isPrefixOf]
    exact eq_comm

lemma startsPlus_not_minus (x : String) (h : jsStartsWith x "+" = true) :
    jsStartsWith x "-" = false := by
  obtain ⟨t, ht⟩ := (startsWith_plus_iff x).1 h
  unfold jsStartsWith
  rw [ht]
  simp [List.isPrefixOf]

lemma startsPlus_not_atat (x : String) (h : jsStartsWith x "+" = true) :
    jsStartsWith x "@@" = false := by
  obtain ⟨t, ht⟩ := (startsWith_plus_iff x).1 h
  unfold jsStartsWith
  rw [ht]
  simp [List.isPrefixOf]

lemma startsAtat_not_plus3 (x : String) (h : jsStartsWith x "@@" = true) :
    jsStartsWith x "+++" = false := by
  unfold jsStartsWith at h ⊢
  cases hx : x.data with
  | nil => rw [hx] at h; simp [List.isPrefixOf] at h
  | cons c t =>
    rw [hx] at h
    simp [List.isPrefixOf] at h
    simp [List.isPrefixOf]
    intro hc
    rw [← hc] at h
    exact absurd h.1 (by decide)

lemma parseStep_body (s : ParseState) (x : String)
    (h1 : jsStartsWith x "+++" = false) (h2 : jsStartsWith x "@@" = false) :
    (parseStep s x).currentLine
        = s.currentLine + (if jsStartsWith x "-" = true then 0 else 1)
      ∧ (parseStep s x).currentFile = s.currentFile := by
  by_cases hp : jsStartsWith x "+" = true
  · have hm : jsStartsWith x "-" = false := startsPlus_not_minus x hp
    by_cases hf : s.currentFile = ""
    · simp [parseStep, h1, h2, hp, hm, hf]
    · simp [parseStep, h1, h2, hp, hm, hf]
  · by_cases hm : jsStartsWith x "-" = true
    · simp [parseStep, h1, h2, hp, hm]
    · simp [parseStep, h1, h2, hp, hm]

lemma foldl_body (bs : List String) (s : ParseState)
    (hb : ∀ x ∈ bs, jsStartsWith x "+++" = false ∧ jsStartsWith x "@@" = false) :
    ((bs.foldl parseStep s).currentLine
        = s.currentLine + bs.countP (fun x => !jsStartsWith x "-"))
      ∧ (bs.foldl parseStep s).currentFile = s.currentFile := by
  induction bs generalizing s with
  | nil => simp
  | cons x bs ih =>
    obtain ⟨h1, h2⟩ := hb x (by simp)
    have hx := parseStep_body s x h1 h2
    have ih2 := ih (parseStep s x) (fun y hy => hb y (by simp [hy]))
    rw [List.foldl_cons]
    refine ⟨?_, ih2.2.trans hx.2⟩
    rw [ih2.1, hx.1, List.countP_cons]
    by_cases hm : jsStartsWith x "-" = true
    · simp [hm]
    · simp [hm]
      omega

lemma any_key_iff (m : FileMap) (k : String) :
    m.any (fun p => p.1 == k) = true ↔ k ∈ keysOf m := by
  simp only [keysOf, List.any_eq_true, List.mem_map, beq_iff_eq]

lemma keysOf_mapSet (m : FileMap) (k : String) (v : List Nat) :
    keysOf (mapSet m k v)
      = if k ∈ keysOf m then keysOf m else keysOf m ++ [k] := by
  by_cases h : k ∈ keysOf m
  · rw [if_pos h]
    unfold mapSet
    rw [if_pos ((any_key_iff m k).2 h)]
    unfold keysOf
    rw [List.map_map]
    refine List.map_congr_left ?_
    intro p _
    by_cases hp : p.1 == k
    · simp [hp, Function.comp]
    · simp [hp, Function.comp]
  · rw [if_neg h]
    unfold mapSet
    rw [if_neg (fun hc => h ((any_key_iff m k).1 hc))]
    simp [keysOf]

lemma keysOf_mapAdd (m : FileMap) (k : String) (v : Nat) :
    keysOf (mapAdd m k v) = keysOf m := by
  unfold keysOf mapAdd
  rw [List.map_map]
  refine List.map_congr_left ?_
  intro p _
  by_cases hp : p.1 == k
  · simp [hp, Function.comp]
  · simp [hp, Function.comp]

lemma currentFile_parseStep (s : ParseState) (x : String)
    (h1 : jsStartsWith x "+++" = false) :
    (parseStep s x).currentFile = s.currentFile := by
  by_cases h2 : jsStartsWith x "@@" = true
  · simp only [parseStep, h1, Bool.false_eq_true, if_false, h2, if_true]
    cases findHunkNum x.data <;> rfl
  · by_cases hp : (jsStartsWith x "+" && s.currentFile != "") = true
    · simp [parseStep, h1, h2, hp]
    · by_cases hm : jsStartsWith x "-" = true
      · simp [parseStep, h1, h2, hp, hm]
      · simp [parseStep, h1, h2, hp, hm]

lemma keysOf_parseStep (s : ParseState) (x : String) :
    keysOf (parseStep s x).files
      = if jsStartsWith x "+++" = true then
          (if jsDrop x 6 ∈ keysOf s.files then keysOf s.files
            else keysOf s.files ++ [jsDrop x 6])
        else keysOf s.files := by
  by_cases h1 : jsStartsWith x "+++" = true
  · simp only [h1, if_true]
    simp only [parseStep, h1, if_true]
    exact keysOf_mapSet s.files (jsDrop x 6) []
  · simp only [h1, Bool.false_eq_true, if_false]
    by_cases h2 : jsStartsWith x "@@" = true
    · simp only [parseStep, h1, Bool.false_eq_true, if_false, h2, if_true]
      cases findHunkNum x.data <;> rfl
    · by_cases hp : (jsStartsWith x "+" && s.currentFile != "") = true
      · simp only [parseStep, h1, Bool.false_eq_true, if_false, h2, hp, if_true]
        exact keysOf_mapAdd s.files s.currentFile s.currentLine
      · by_cases hm : jsStartsWith x "-" = true
        · simp [parseStep, h1, h2, hp, hm]
        · simp [parseStep, h1, h2, hp, hm]

lemma keysOf_foldl (ls : List String) (s : ParseState) :
    keysOf ((ls.foldl parseStep s).files)
      = ((ls.filter (fun x => jsStartsWith x "+++")).map (fun x => jsDrop x 6)).foldl
          (fun acc x => if x ∈ acc then acc else acc ++ [x]) (keysOf s.files) := by
  induction ls generalizing s with
  | nil => simp
  | cons x ls ih =>
    rw [List.foldl_cons, ih, List.filter_cons]
    by_cases h1 : jsStartsWith x "+++" = true
    · simp only [h1, if_true, List.map_cons, List.foldl_cons, keysOf_parseStep]
    · simp only [h1, Bool.false_eq_true, if_false, keysOf_parseStep]

lemma mem_foldl_dedup (ls : List String) (acc : List String) (k : String) :
    k ∈ ls.foldl (fun acc x => if x ∈ acc then acc else acc ++ [x]) acc
      ↔ k ∈ acc ∨ k ∈ ls := by
  induction ls generalizing acc with
  | nil => simp
  | cons x ls ih =>
    rw [List.foldl_cons, ih]
    by_cases h : x ∈ acc
    · simp only [h, if_true, List.mem_cons]
      constructor
      · rintro (hk | hk)
        · exact Or.inl hk
        · exact Or.inr (Or.inr hk)
      · rintro (hk | hk | hk)
        · exact Or.inl hk
        · exact Or.inl (hk ▸ h)
        · exact Or.inr hk
    · simp only [h, if_false, List.mem_append, List.mem_cons, List.mem_singleton]
      tauto

/-- Claim C3: for every unified diff, the order of file paths in the
changedFiles sequence returned by the diff parser equals the order in
which their file headers first appear in the diff text, never re-sorted:
the keys of the parsed map are the first-seen sequence of the paths of the
header lines. -/
theorem changedFiles_order (diff : String) :
    changedFilesOf diff = firstSeen (plusPaths diff) := by
  unfold changedFilesOf parseDiff firstSeen plusPaths
  rw [keysOf_foldl]
  rfl

/-- Counterexample to claim C2: a diff whose only hunk deletes a line
registers the file of its header in changedFiles even though its recorded
added-line set is empty, so changedFiles is not restricted to paths with
at least one added line. -/
theorem changedFiles_zero_added_cex :
    "a.txt" ∈ changedFilesOf "+++ b/a.txt\n@@ -1,2 +1,1 @@\n-x\n y"
      ∧ lookupLines (parseDiff "+++ b/a.txt\n@@ -1,2 +1,1 @@\n-x\n y").files "a.txt" = [] := by
  decide

/-- Claim C2 as amended: changedFiles contains exactly the file paths
that appear in a header line starting with three plus signs, each taken
as the remainder of its line after six characters, whether or not any
added line was recorded for it; no path that never appeared in such a
header is present. -/
theorem changedFiles_membership (diff : String) (f : String) :
    f ∈ changedFilesOf diff
      ↔ ∃ l ∈ jsSplitLines diff, jsStartsWith l "+++" = true ∧ jsDrop l 6 = f := by
  unfold changedFilesOf parseDiff
  rw [keysOf_foldl, mem_foldl_dedup]
  simp only [initState, keysOf, List.map_nil, List.not_mem_nil, false_or,
    List.mem_map, List.mem_filter]
  constructor
  · rintro ⟨l, ⟨hl, hs⟩, hd⟩
    exact ⟨l, hl, hs, hd⟩
  · rintro ⟨l, hl, hs, hd⟩
    exact ⟨l, ⟨hl, hs⟩, hd⟩

lemma mem_keysOf_mapSet_self (m : FileMap) (k : String) (v : List Nat) :
    k ∈ keysOf (mapSet m k v) := by
  rw [keysOf_mapSet]
  by_cases h : k ∈ keysOf m
  · simp [h]
  · simp [h]

lemma fileInv_parseStep (s : ParseState) (x : String) (h : FileInv s) :
    FileInv (parseStep s x) := by
  by_cases h1 : jsStartsWith x "+++" = true
  · right
    simp only [parseStep, h1, if_true]
    exact mem_keysOf_mapSet_self s.files (jsDrop x 6) []
  · have hf := currentFile_parseStep s x (by simpa using h1)
    have hk := keysOf_parseStep s x
    rw [if_neg (by simpa using h1)] at hk
    unfold FileInv
    rw [hf, hk]
    exact h

lemma fileInv_foldl (ls : List String) (s : ParseState) (h : FileInv s) :
    FileInv (ls.foldl parseStep s) := by
  induction ls generalizing s with
  | nil => exact h
  | cons x ls ih => exact ih (parseStep s x) (fileInv_parseStep s x h)

lemma mem_setAdd_self (s : List Nat) (v : Nat) : v ∈ setAdd s v := by
  unfold setAdd
  by_cases h : v ∈ s
  · simp [h]
  · simp [h]

lemma lookupLines_mapAdd_self (m : FileMap) (k : String) (v : Nat)
    (h : k ∈ keysOf m) :
    lookupLines (mapAdd m k v) k = setAdd (lookupLines m k) v := by
  induction m with
  | nil => simp [keysOf] at h
  | cons p m ih =>
    by_cases hp : p.1 = k
    · simp [mapAdd, lookupLines, List.find?_cons, hp]
    · have h2 : k ∈ keysOf m := by
        simp only [keysOf, List.map_cons, List.mem_cons] at h
        rcases h with h | h
        · exact absurd h.symm hp
        · simpa [keysOf] using h
      have hb : (p.1 == k) = false := by simpa using hp
      simp only [mapAdd, List.map_cons, hb, Bool.false_eq_true, if_false]
      simp only [lookupLines, List.find?_cons, hb]
      simpa [mapAdd, lookupLines] using ih h2

lemma parseStep_plus (s : ParseState) (l : String)
    (hl3 : jsStartsWith l "+++" = false) (hat : jsStartsWith l "@@" = false)
    (hl : jsStartsWith l "+" = true) (hf : s.currentFile ≠ "") :
    parseStep s l
      = { s with files := mapAdd s.files s.currentFile s.currentLine,
                 currentLine := s.currentLine + 1 } := by
  unfold parseStep
  simp [hl3, hat, hl, hf]

/-- Claim C1: reading a hunk header line matching the hunk pattern resets
the running new-side counter to the captured new start c, so after a hunk
body with no further header lines the counter is c plus the number of
added and context lines of that body, and an added line processed next,
under a known current file, records exactly that value into the current
file line set (added and context lines advance the counter, deletion
lines do not). -/
theorem hunk_counter_fidelity (pre b1 : List String) (h l : String) (c : Nat)
    (hh : jsStartsWith h "@@" = true) (hc : findHunkNum h.data = some c)
    (hb : ∀ x ∈ b1, jsStartsWith x "+++" = false ∧ jsStartsWith x "@@" = false)
    (hl : jsStartsWith l "+" = true) (hl3 : jsStartsWith l "+++" = false)
    (hf : (List.foldl parseStep initState (pre ++ h :: b1)).currentFile ≠ "") :
    (List.foldl parseStep initState (pre ++ h :: b1)).currentLine
        = c + b1.countP (fun x => !jsStartsWith x "-")
      ∧ (c + b1.countP (fun x => !jsStartsWith x "-"))
          ∈ lookupLines (List.foldl parseStep initState ((pre ++ h :: b1) ++ [l])).files
              (List.foldl parseStep initState (pre ++ h :: b1)).currentFile := by
  have hq : jsStartsWith h "+++" = false := startsAtat_not_plus3 h hh
  have e0 : parseStep (List.foldl parseStep initState pre) h
      = { List.foldl parseStep initState pre with currentLine := c } := by
    simp [parseStep, hq, hh, hc]
  have e1 : List.foldl parseStep initState (pre ++ h :: b1)
      = List.foldl parseStep
          { List.foldl parseStep initState pre with currentLine := c } b1 := by
    rw [List.foldl_append, List.foldl_cons, e0]
  have body := foldl_body b1
    { List.foldl parseStep initState pre with currentLine := c } hb
  have cl1 : (List.foldl parseStep initState (pre ++ h :: b1)).currentLine
      = c + b1.countP (fun x => !jsStartsWith x "-") := by
    rw [e1]
    exact body.1
  refine ⟨cl1, ?_⟩
  have e2 : List.foldl parseStep initState ((pre ++ h :: b1) ++ [l])
      = parseStep (List.foldl parseStep initState (pre ++ h :: b1)) l := by
    rw [List.foldl_append, List.foldl_cons, List.foldl_nil]
  have hinv : FileInv (List.foldl parseStep initState (pre ++ h :: b1)) :=
    fileInv_foldl _ initState (Or.inl rfl)
  have hkey : (List.foldl parseStep initState (pre ++ h :: b1)).currentFile
      ∈ keysOf (List.foldl parseStep initState (pre ++ h :: b1)).files :=
    hinv.resolve_left hf
  have hat : jsStartsWith l "@@" = false := startsPlus_not_atat l hl
  rw [e2, parseStep_plus _ l hl3 hat hl hf]
  dsimp only
  rw [lookupLines_mapAdd_self _ _ _ hkey, cl1]
  exact mem_setAdd_self _ _

/-- Witness for claim C1 on the scenario of the spec: one file, hunk new
start 1, three context lines, then one added line, recorded as line 4. -/
theorem hunk_counter_fidelity_witness :
    jsStartsWith "@@ -1,3 +1,4 @@" "@@" = true
      ∧ findHunkNum "@@ -1,3 +1,4 @@".data = some 1
      ∧ (∀ x ∈ [" line1", " line2", " line3"],
          jsStartsWith x "+++" = false ∧ jsStartsWith x "@@" = false)
      ∧ jsStartsWith "+line4" "+" = true
      ∧ jsStartsWith "+line4" "+++" = false
      ∧ (List.foldl parseStep initState
          (["--- a/a.txt", "+++ b/a.txt"]
            ++ "@@ -1,3 +1,4 @@" :: [" line1", " line2", " line3"])).currentFile ≠ ""
      ∧ ((List.foldl parseStep initState
            (["--- a/a.txt", "+++ b/a.txt"]
              ++ "@@ -1,3 +1,4 @@" :: [" line1", " line2", " line3"])).currentLine
          = 1 + List.countP (fun x => !jsStartsWith x "-") [" line1", " line2", " line3"]
        ∧ (1 + List.countP (fun x => !jsStartsWith x "-") [" line1", " line2", " line3"])
            ∈ lookupLines
                (List.foldl parseStep initState
                  ((["--- a/a.txt", "+++ b/a.txt"]
                    ++ "@@ -1,3 +1,4 @@" :: [" line1", " line2", " line3"]) ++ ["+line4"])).files
                (List.foldl parseStep initState
                  (["--- a/a.txt", "+++ b/a.txt"]
                    ++ "@@ -1,3 +1,4 @@" :: [" line1", " line2", " line3"])).currentFile) := by
  refine ⟨by decide, by decide, by decide, by decide, by decide, by decide, ?_⟩
  exact hunk_counter_fidelity ["--- a/a.txt", "+++ b/a.txt"] [" line1", " line2", " line3"]
    "@@ -1,3 +1,4 @@" "+line4" 1 (by decide) (by decide) (by decide) (by decide)
    (by decide) (by decide)

lemma mem_relevantLines (n : Nat) (ls : List Nat) (i : ℕ) :
    i ∈ relevantLines n ls ↔ ∃ L ∈ ls, L - 25 ≤ i ∧ i < min n (L + 25) := by
  have key : ∀ (acc : Finset ℕ),
      (i ∈ ls.foldl (fun a L => a ∪ Finset.Ico (L - 25) (min n (L + 25))) acc
        ↔ i ∈ acc ∨ ∃ L ∈ ls, L - 25 ≤ i ∧ i < min n (L + 25)) := by
    induction ls with
    | nil => simp
    | cons L ls ih =>
      intro acc
      rw [List.foldl_cons, ih]
      simp only [Finset.mem_union, Finset.mem_Ico, List.mem_cons]
      constructor
      · rintro ((hi | hi) | ⟨M, hM, hw⟩)
        · exact Or.inl hi
        · exact Or.inr ⟨L, Or.inl rfl, hi⟩
        · exact Or.inr ⟨M, Or.inr hM, hw⟩
      · rintro (hi | ⟨M, hM | hM, hw⟩)
        · exact Or.inl (Or.inl hi)
        · exact Or.inl (Or.inr (hM ▸ hw))
        · exact Or.inr ⟨M, hM, hw⟩
  simpa [relevantLines] using key ∅

/-- Counterexample to claim C4: for the changed line number 30 in a
100-line file, a window of twenty-five lines before and twenty-five lines
after would contain index 55, but the set built by the code stops at the
exclusive bound 30 + 25 and does not contain 55. -/
theorem window_extent_cex :
    55 ∈ specWindow 100 30 ∧ 55 ∉ relevantLines 100 [30] := by
  constructor
  · decide
  · decide

/-- Claim C4 as amended: for every changed line number L the selected
window is the half-open index range from L - 25 (clamped at zero) up to
but excluding min(file line count, L + 25), that is twenty-five indices
before L and twenty-four after it, and the set of line indices considered
for emission is exactly the union of these windows. -/
theorem relevantLines_window (n : Nat) (ls : List Nat) (i : ℕ) :
    i ∈ relevantLines n ls ↔ ∃ L ∈ ls, L - 25 ≤ i ∧ i < min n (L + 25) :=
  mem_relevantLines n ls i

/-- Claim C9: the excerpt construction is deterministic in the changed
line set, taken as a set: two input lists with the same members produce
byte-identical sampler output, so two invocations on the same inputs do
as well. -/
theorem sampler_deterministic (fc : Option String) (ls1 ls2 : List Nat)
    (h : ∀ i, i ∈ ls1 ↔ i ∈ ls2) :
    getSmartFileContent fc ls1 = getSmartFileContent fc ls2 := by
  have hr : ∀ n, relevantLines n ls1 = relevantLines n ls2 := by
    intro n
    refine Finset.ext fun i => ?_
    rw [mem_relevantLines, mem_relevantLines]
    constructor
    · rintro ⟨L, hL, h1, h2⟩
      exact ⟨L, (h L).1 hL, h1, h2⟩
    · rintro ⟨L, hL, h1, h2⟩
      exact ⟨L, (h L).2 hL, h1, h2⟩
  cases fc with
  | none => rfl
  | some c => simp only [getSmartFileContent, sampleLines, hr]

/-- Witness for claim C9 at a concrete input: the lists with the same
members in different order and multiplicity sample identically. -/
theorem sampler_deterministic_witness :
    (∀ i : Nat, i ∈ [3, 5] ↔ i ∈ [5, 3, 3])
      ∧ getSmartFileContent (some "hello") [3, 5]
          = getSmartFileContent (some "hello") [5, 3, 3] := by
  have hm : ∀ i : Nat, i ∈ [3, 5] ↔ i ∈ [5, 3, 3] := by
    intro i
    simp only [List.mem_cons, List.not_mem_nil, or_false]
    tauto
  exact ⟨hm, sampler_deterministic (some "hello") [3, 5] [5, 3, 3] hm⟩

/-- Claim C10: an existing but empty committed file yields no sampled
content, exactly as a file missing from the committed tree does. -/
theorem empty_content_absent (ls : List Nat) :
    getSmartFileContent (some "") ls = none ∧ getSmartFileContent none ls = none :=
  ⟨rfl, rfl⟩

/-- Claim C5: for a file at or above the size threshold, the sampler
returns nothing when the unioned window set holds more than the line
budget of 100 indices, and otherwise emits the full excerpt built from
every selected index, never a truncated one. -/
theorem sampler_budget (c : String) (ls : List Nat)
    (hbig : ¬ c.length < MAX_FILE_SIZE) :
    getSmartFileContent (some c) ls =
      if MAX_LINES_CONTEXT < (relevantLines (jsSplitLines c).length ls).card then none
      else some (buildExcerpt (jsSplitLines c) (relevantLines (jsSplitLines c).length ls)) := by
  have hne : c ≠ "" := by
    intro h
    rw [h] at hbig
    exact hbig (by decide)
  simp only [getSmartFileContent]
  rw [if_neg hne, if_neg hbig]
  rfl

lemma length_aLines (n : Nat) : (aLines n).length = 2 * n := by
  induction n with
  | zero => rfl
  | succ n ih =>
    show (aLines n).length + 1 + 1 = 2 * (n + 1)
    omega

lemma splitNl_nl (rest : List Char) :
    splitNl ('\n' :: rest) = [] :: splitNl rest := by
  rw [splitNl]
  simp

lemma splitNl_aLines (n : Nat) :
    splitNl (aLines n) = List.replicate n ['a'] ++ [[]] := by
  induction n with
  | zero => rfl
  | succ n ih =>
    show splitNl ('a' :: '\n' :: aLines n) = _
    rw [splitNl, if_neg (by decide : ¬ ('a' : Char) = '\n'), splitNl_nl, ih,
      List.replicate_succ]
    simp

lemma bigA_length : bigA.length = 51200 := by
  show (aLines 25600).length = 51200
  rw [length_aLines]

lemma bigA_lines_length : (jsSplitLines bigA).length = 25601 := by
  unfold jsSplitLines bigA
  rw [show (String.mk (aLines 25600)).data = aLines 25600 from rfl, splitNl_aLines,
    List.length_map, List.length_append, List.length_replicate]
  rfl

lemma bigA_relevant_card :
    (relevantLines (jsSplitLines bigA).length [100, 10000, 20000]).card = 150 := by
  rw [bigA_lines_length]
  have d1 : Disjoint (Finset.Ico (75 : ℕ) 125) (Finset.Ico (9975 : ℕ) 10025) := by
    rw [Finset.disjoint_left]
    intro a ha hb
    simp only [Finset.mem_Ico] at ha hb
    omega
  have d2 : Disjoint (Finset.Ico (75 : ℕ) 125 ∪ Finset.Ico (9975 : ℕ) 10025)
      (Finset.Ico (19975 : ℕ) 20025) := by
    rw [Finset.disjoint_left]
    intro a ha hb
    simp only [Finset.mem_union, Finset.mem_Ico] at ha hb
    omega
  have e : relevantLines 25601 [100, 10000, 20000]
      = (Finset.Ico (75 : ℕ) 125 ∪ Finset.Ico (9975 : ℕ) 10025)
          ∪ Finset.Ico (19975 : ℕ) 20025 := by
    unfold relevantLines
    simp only [List.foldl_cons, List.foldl_nil, Finset.empty_union]
    norm_num
  rw [e, Finset.card_union_of_disjoint d2, Finset.card_union_of_disjoint d1]
  simp [Nat.card_Ico]

/-- Witness for claim C5: a 51200-character committed file with 25600
lines and three widely separated changed lines selects 150 indices,
exceeding the budget, so the sampler returns nothing. -/
theorem sampler_budget_witness :
    (¬ bigA.length < MAX_FILE_SIZE)
      ∧ getSmartFileContent (some bigA) [100, 10000, 20000] = none := by
  have hbig : ¬ bigA.length < MAX_FILE_SIZE := by
    rw [bigA_length]
    decide
  refine ⟨hbig, ?_⟩
  rw [sampler_budget bigA [100, 10000, 20000] hbig,
    if_pos (by rw [bigA_relevant_card]; decide)]

/-- Counterexample to claim C6: on a reply whose text content fails to
parse as JSON, the branch-review generator reviewCode does not recover
with a fallback result; the parse failure propagates out of the call and
no result is produced. -/
theorem review_fallback_cex :
    reviewCode (fun _ => none) (some "this is not json") = none := rfl

/-- Claim C6 as amended: for every reply whose text fails to parse, the
commit-message generator parseAIResponse recovers non-fatally, returning
the raw reply text as the message with both flags false, while the
branch-review generator reviewCode propagates the parse failure and
produces no result. -/
theorem parse_fallback (parse : String → Option AIResponse) (content : Option String)
    (hfail : parse (content.getD "") = none) :
    parseAIResponse parse content
        = { message := content.getD "", hasSensitiveInfo := false,
            hasReviewIssues := false }
      ∧ ∀ (parseR : String → Option CodeReviewResult) (c : String),
          parseR c = none → reviewCode parseR (some c) = none := by
  constructor
  · unfold parseAIResponse
    rw [hfail]
  · intro parseR c hc
    simp [reviewCode, hc]

/-- Witness for claim C6 as amended, at a concrete failing parse. -/
theorem parse_fallback_witness :
    ((fun _ : String => (none : Option AIResponse)) ((some "oops").getD "") = none)
      ∧ (parseAIResponse (fun _ => none) (some "oops")
            = { message := "oops", hasSensitiveInfo := false, hasReviewIssues := false }
          ∧ ∀ (parseR : String → Option CodeReviewResult) (c : String),
              parseR c = none → reviewCode parseR (some c) = none) :=
  ⟨rfl, parse_fallback (fun _ => none) (some "oops") rfl⟩

/-- Counterexample to claim C7: with a branch pair given, the stat summary
placed in the payload is the output of the bare stat invocation, not the
stat of the branch-range comparison that produced the main diff. -/
theorem stats_comparison_cex :
    diffStats (getSmartDiff g0 show0 opts0) = some "plain-stat"
      ∧ specSameComparisonStats g0 opts0 = "range-stat" := by
  constructor
  · rfl
  · rfl

/-- Claim C7 as amended: every successful fetch places in the payload the
stat summary obtained by invoking diff with only the stat flag, the
unstaged working-tree comparison, regardless of which comparison produced
the main diff. -/
theorem getSmartDiff_stats (g : List String → String) (sh : String → Option String)
    (o : DiffOptions) (info : DiffInfo)
    (h : getSmartDiff g sh o = Except.ok info) :
    info.stats = g ["--stat"] := by
  dsimp only [getSmartDiff] at h
  split at h
  · split at h
    · exact Except.noConfusion h
    · injection h with h2
      rw [← h2]
  · split at h
    · split at h
      · exact Except.noConfusion h
      · injection h with h2
        rw [← h2]
    · injection h with h2
      rw [← h2]

/-- Witness for claim C7 as amended at the concrete fetch of the
counterexample. -/
theorem getSmartDiff_stats_witness :
    getSmartDiff g0 show0 opts0 = Except.ok info0
      ∧ info0.stats = g0 ["--stat"] := by
  have h : getSmartDiff g0 show0 opts0 = Except.ok info0 := by rfl
  exact ⟨h, getSmartDiff_stats g0 show0 opts0 info0 h⟩

/-- Claim C8: with no branch pair given and both the staged diff and the
unstaged fallback diff empty, the fetch fails with exactly the no-changes
message and produces no payload. -/
theorem getSmartDiff_noChanges (g : List String → String) (sh : String → Option String)
    (o : DiffOptions) (hf : o.fromBranch = none) (ht : o.toBranch = none)
    (h1 : g ("--staged" :: baseArgs) = "") (h2 : g baseArgs = "") :
    getSmartDiff g sh o = Except.error "No changes found in the repository." := by
  simp [getSmartDiff, hf, ht, jsTruthy, h1, h2]

/-- Witness for claim C8 at a concrete git function with no output. -/
theorem getSmartDiff_noChanges_witness :
    ((fun _ : List String => "") ("--staged" :: baseArgs) = "")
      ∧ ((fun _ : List String => "") baseArgs = "")
      ∧ getSmartDiff (fun _ => "") (fun _ => none)
          { shouldStage := false, fromBranch := none, toBranch := none }
          = Except.error "No changes found in the repository." :=
  ⟨rfl, rfl, getSmartDiff_noChanges (fun _ => "") (fun _ => none)
    { shouldStage := false, fromBranch := none, toBranch := none } rfl rfl rfl rfl⟩

end CommitAI
